import Mathlib

/-!
Verification of the FCD (Fréchet ChemblNet Distance) pipeline from
`model/framework/mollib/virtual_libraries/src/python/fcd/FCD.py`.

The development shallowly embeds the Python source:
* vectors are `List ℚ`, matrices are `List (List ℚ)` (exact rational
  arithmetic stands in for IEEE floats);
* `scipy.linalg.sqrtm` is an external routine; it is abstracted as a
  backend (`Sqrtm`) that returns the real and imaginary parts of the
  computed root together with the two flags the Python code inspects
  (`np.isfinite(...).all()` and `np.iscomplexobj(...)`);
* Python exceptions become `Except` / `Option` results.
-/

/-! ## Linear-algebra primitives (numpy operations used by the source) -/

abbrev Vec := List ℚ

abbrev Mat := List (List ℚ)

/-- Elementwise difference `mu1 - mu2` of two equal-length vectors. -/
def vecSub (a b : Vec) : Vec := List.zipWith (fun x y => x - y) a b

/-- `diff.dot(diff)`-style dot product. -/
def dot (a b : Vec) : ℚ := (List.zipWith (fun x y => x * y) a b).sum

/-- numpy `.shape` of a (rectangular) 2-D array: (rows, columns). -/
def matShape (m : Mat) : ℕ × ℕ := (m.length, (m.headD []).length)

/-- Entry `m[i, j]` (0 outside bounds; the embedding only reads in-bounds). -/
def matEntry (m : Mat) (i j : ℕ) : ℚ := (m.getD i []).getD j 0

/-- `np.trace`: sum of `m[i, i]` for `i < min(rows, cols)`. -/
def trace (m : Mat) : ℚ :=
  ((List.range (min m.length (m.headD []).length)).map (fun i => matEntry m i i)).sum

/-- Elementwise matrix sum (shapes agree at every use site). -/
def matAdd (a b : Mat) : Mat := List.zipWith (fun r s => List.zipWith (fun x y => x + y) r s) a b

/-- Matrix product `a.dot(b)`. -/
def matMul (a b : Mat) : Mat :=
  a.map (fun row =>
    (List.range (matShape b).2).map (fun j =>
      (List.zipWith (fun x y => x * y) row (b.map (fun r => r.getD j 0))).sum))

/-- `np.eye(n) * eps`: the diagonal regularization offset. -/
def eyeEps (n : ℕ) (eps : ℚ) : Mat :=
  (List.range n).map (fun i => (List.range n).map (fun j => if i = j then eps else 0))

/-! ## The `scipy.linalg.sqrtm` backend

The matrix square root is computed by scipy, outside this repository.  The
embedding abstracts one call to `linalg.sqrtm` as a function producing the
real part, the imaginary part, and the two flags the Python code branches
on.  When `isComplex = false` the array is real-typed and `re` is the
returned matrix (`im` is irrelevant and never used on that path). -/

structure SqrtmResult where
  re : Mat
  im : Mat
  allFinite : Bool
  isComplex : Bool

structure Sqrtm where
  run : Mat → SqrtmResult

/-- Errors raised by `calculate_frechet_distance`: the two `assert`
messages and the `ValueError("Imaginary component ...")` carrying the
maximum absolute imaginary magnitude. -/
inductive FrechetError where
  | assertionError (msg : String)
  | valueError (maxImag : ℚ)
deriving DecidableEq

deriving instance DecidableEq for Except

/-- The `warnings.warn` message emitted on the regularization path; it
names the regularization constant `eps`. -/
def warnMsg (eps : ℚ) : String :=
  "fid calculation produces singular product; adding " ++ toString eps ++
    " to diagonal of cov estimates"

/-- `np.allclose(np.diagonal(covmean).imag, 0, atol=1e-3)`: every diagonal
entry of the imaginary part is within absolute tolerance `1/1000` of zero
(the `rtol` contribution vanishes since the comparison target is 0). -/
def diagImagOk (r : SqrtmResult) : Bool :=
  (List.range (min r.im.length (r.im.headD []).length)).all
    (fun i => decide (|matEntry r.im i i| ≤ 1 / 1000))

/-- `np.max(np.abs(covmean.imag))`: maximum absolute imaginary entry over
the whole matrix (0 for an empty matrix; real inputs are nonempty). -/
def maxAbs (m : Mat) : ℚ := (m.flatten.map (fun x => |x|)).foldl max 0

/-- Lines 67–76 of FCD.py: the first (tolerant) square root of
`sigma1.dot(sigma2)`; if any entry is non-finite, warn naming `eps` and
recompute from the product of the covariances with `eps` added to the
diagonal (`offset = np.eye(sigma1.shape[0]) * eps`).  Returns the root
actually used plus the warnings emitted. -/
def covmeanOf (S : Sqrtm) (sigma1 sigma2 : Mat) (eps : ℚ) : SqrtmResult × List String :=
  let r1 := S.run (matMul sigma1 sigma2)
  if r1.allFinite then (r1, [])
  else
    (S.run (matMul (matAdd sigma1 (eyeEps sigma1.length eps))
                   (matAdd sigma2 (eyeEps sigma1.length eps))),
     [warnMsg eps])

/-- Line 87 of FCD.py: `diff.dot(diff) + np.trace(sigma1) + np.trace(sigma2)
- 2 * tr_covmean`. -/
def frechetVal (diff : Vec) (s1 s2 covRe : Mat) : ℚ :=
  dot diff diff + trace s1 + trace s2 - 2 * trace covRe

/-- `calculate_frechet_distance` (FCD.py lines 26–87).  The result carries
the list of warnings emitted (empty unless the regularization path runs). -/
def calculate_frechet_distance (S : Sqrtm) (mu1 : Vec) (sigma1 : Mat)
    (mu2 : Vec) (sigma2 : Mat) (eps : ℚ) : Except FrechetError (ℚ × List String) :=
  if mu1.length ≠ mu2.length then
    .error (.assertionError "Training and test mean vectors have different lengths")
  else if matShape sigma1 ≠ matShape sigma2 then
    .error (.assertionError "Training and test covariances have different dimensions")
  else
    let diff := vecSub mu1 mu2
    let cw := covmeanOf S sigma1 sigma2 eps
    if cw.1.isComplex then
      if diagImagOk cw.1 then .ok (frechetVal diff sigma1 sigma2 cw.1.re, cw.2)
      else .error (.valueError (maxAbs cw.1.im))
    else .ok (frechetVal diff sigma1 sigma2 cw.1.re, cw.2)

/-! ## The one-hot SMILES encoder (`get_one_hot`, FCD.py lines 124–190)

The Python loop is embedded with explicit index bookkeeping:
* `numpy` index errors (writing `vec[j, ...]` out of range, or reading
  `smiles[i]` in the uncaught stop check) become `none`;
* the bare `except` around `smiles[i + 1]` keeps the previous `sym`; if no
  previous iteration bound `sym`, Python raises `UnboundLocalError`, which
  is also `none`;
* the loop body runs once per recursive step; each iteration increments
  the row index `j`, and a write at `j ≥ len(vec)` fails, so the fuel
  `vec.length + 1` supplied by `get_one_hot` can never be exhausted. -/

/-- The 35-token vocabulary `one_hot` of `get_one_hot` (order significant). -/
def one_hot : List (List Char) :=
  [['C'], ['N'], ['O'], ['H'], ['F'], ['C', 'l'], ['P'], ['B'], ['B', 'r'], ['S'],
   ['I'], ['S', 'i'], ['#'], ['('], [')'], ['+'], ['-'], ['1'], ['2'], ['3'],
   ['4'], ['5'], ['6'], ['7'], ['8'], ['='], ['['], [']'], ['@'], ['c'],
   ['n'], ['o'], ['s'], ['X'], ['.']]

/-- The `try` block of the scan loop: look at `smiles[i + 1]`; if it is
`'r'`, `'i'` or `'l'` consume the two-character slice `smiles[i : i + 2]`
and advance by 2, otherwise consume `smiles[i]` and advance by 1.  `none`
is the `IndexError` caught by the bare `except`. -/
def tokStep (t : List Char) (i : ℕ) : Option (List Char × ℕ) :=
  match t.get? (i + 1) with
  | some c =>
      if c ∈ ['r', 'i', 'l'] then some ((t.drop i).take 2, i + 2)
      else
        match t.get? i with
        | some c0 => some ([c0], i + 1)
        | none => none
  | none => none

/-- `except` handling: on an `IndexError` the previous `sym` is reused at
the unchanged position; with no previous `sym` the subsequent
`if sym in one_hot` raises `UnboundLocalError` (modelled `none`). -/
def pickSym (tok : Option (List Char × ℕ)) (symPrev : Option (List Char)) (i : ℕ) :
    Option (List Char × ℕ) :=
  match tok with
  | some si => some si
  | none =>
      match symPrev with
      | some s => some (s, i)
      | none => none

/-- `one_hot.index(sym)` if recognized, else `one_hot.index("X")`. -/
def symIndex (sym : List Char) : ℕ :=
  if sym ∈ one_hot then one_hot.indexOf sym else one_hot.indexOf ['X']

/-- `vec[j, k] = 1` with numpy bounds behaviour on the row index
(`IndexError`, i.e. `none`, when `j` is out of range; the column index is
always in range since rows have width 35). -/
def setEntry (m : Mat) (j k : ℕ) : Option Mat :=
  if j < m.length then some (m.set j ((m.getD j []).set k 1)) else none

/-- One iteration of the `while cont:` loop of `get_one_hot`.  The fuel
argument only bounds the recursion; every iteration performs a successful
write at a strictly increasing row index, so `vec.length + 1 - j` bounds
the number of iterations and the callers below never exhaust the fuel. -/
def oneHotLoop : List Char → Int → ℕ → Mat → ℕ → ℕ → Option (List Char) → Option Mat
  | _, _, 0, _, _, _, _ => none
  | t, padLen, fuel + 1, vec, i, j, symPrev =>
    match pickSym (tokStep t i) symPrev i with
    | none => none
    | some (sym, i2) =>
      match setEntry vec j (symIndex sym) with
      | none => none
      | some vec2 =>
        match t.get? i2 with
        | none => none
        | some c =>
          if c = '.' ∨ ((j + 1 : ℤ) ≥ padLen - 1 ∧ padLen > 0) then
            setEntry vec2 (j + 1) (one_hot.indexOf ['.'])
          else
            oneHotLoop t padLen fuel vec2 i2 (j + 1) (some sym)

/-- All-zero matrix of shape (r, c). -/
def zerosMat (r c : ℕ) : Mat := List.replicate r (List.replicate c 0)

/-- `get_one_hot(smiles, pad_len)` (FCD.py lines 124–190): append the
sentinel `'.'`, allocate `len(smiles)+1` rows when `pad_len < 0` and
`pad_len` rows otherwise, then run the scan loop from `i = j = 0`. -/
def get_one_hot (smiles : String) (pad_len : Int) : Option Mat :=
  let t := smiles.data ++ ['.']
  let vec := if pad_len < 0 then zerosMat t.length 35 else zerosMat pad_len.toNat 35
  oneHotLoop t pad_len (vec.length + 1) vec 0 0 none

/-! ## Batch feeder and embedding extraction (FCD.py lines 193–228) -/

/-- `np.asarray(x) / 35.0`: elementwise rescaling of one encoded tensor. -/
def matDiv35 (m : Mat) : Mat := m.map (fun r => r.map (fun x => x / 35))

/-- `int(np.ceil(n / b))`. -/
def ceilDiv (n b : ℕ) : ℕ := (n + b - 1) / b

/-- Collects a list of optional values; `none` if any element is `none`
(a raised exception inside the generator propagates). -/
def allSome {α : Type} : List (Option α) → Option (List α)
  | [] => some []
  | o :: rest => o.bind (fun a => (allSome rest).map (fun r => a :: r))

/-- `predict_my_generator` (FCD.py lines 193–205): an infinite cyclic
generator; the k-th yielded batch is batch `k % ceil(n / b)` of one pass,
i.e. the one-hot encodings of `smiles_list[j*b : min((j+1)*b, n)]`, each
divided by 35. -/
def predict_my_generator (smiles_list : List String) (batch_size : ℕ) (pad_len : Int)
    (k : ℕ) : Option (List Mat) :=
  let nb := ceilDiv smiles_list.length batch_size
  let j := k % nb
  allSome ((((smiles_list.drop (j * batch_size)).take batch_size)).map
    (fun s => (get_one_hot s pad_len).map matDiv35))

/-- Modelled from the spec: the keras `model.predict_generator` call and
the embedding-model capability are external collaborators (§4.3/§6 of the
spec).  `predict_generator` draws exactly `steps` batches from the
generator and concatenates the model outputs in order; the model
capability `predict_batch` is order-preserving, one embedding vector per
molecule, modelled as mapping a per-molecule function over the batch. -/
def predict_generator (gen : ℕ → Option (List Mat)) (model : Mat → Vec)
    (steps : ℕ) : Option (List Vec) :=
  (allSome ((List.range steps).map gen)).map
    (fun batches => (batches.map (fun b => b.map model)).flatten)

/-- `get_predictions` (FCD.py lines 208–228): drives the generator with
`batch_size = 128` (and the generator's default `pad_len = 350`) for
`steps = ceil(len(gen_mol) / 128)` and collects the activations. -/
def get_predictions (model : Mat → Vec) (gen_mol : List String) : Option (List Vec) :=
  predict_generator (predict_my_generator gen_mol 128 350) model
    (ceilDiv gen_mol.length 128)

/-- A row that carries the terminator mark: entry 1 in column 34
(the index of the token `"."` in `one_hot`). -/
def isTermRow (r : List ℚ) : Bool := decide (r.getD 34 0 = 1)

/-- Backend stub for the C1 witness: the exact principal square root at
the only product that occurs, `[[2]] · [[2]] = [[4]]`, real and finite. -/
def sqrtmId : Sqrtm := ⟨fun _ => ⟨[[2]], [[0]], true, false⟩⟩

/-- The 2×2 zero covariance matrix. -/
def z2 : Mat := [[0, 0], [0, 0]]

/-- `eps · I` for `eps = 1e-6`, the exact principal square root of the
regularized product `eps² · I`. -/
def epsI2 : Mat := [[1 / 1000000, 0], [0, 1 / 1000000]]

/-- Backend modelling scipy at exactly the two calls of the
zero-covariance scenario: the square root of the zero product is
non-finite (NaN off-diagonals in the blocked Schur algorithm — the very
scenario the spec stipulates triggers regularization), and the square
root of the regularized product `(eps·I)·(eps·I) = eps²·I` is the exact,
real, finite `eps·I`. -/
def sqrtmScipyZero : Sqrtm :=
  ⟨fun M => if M = z2 then ⟨z2, z2, false, false⟩ else ⟨epsI2, z2, true, false⟩⟩

/-- Backend stub for the C5 witness: a complex-typed root with a small
imaginary diagonal. -/
def sqrtmCplx : Sqrtm := ⟨fun _ => ⟨[[3]], [[1 / 2000]], true, true⟩⟩

/-- Backend stub for the C6 witness (never consulted: the guards fire
before any numerical work). -/
def sqrtmAny : Sqrtm := ⟨fun M => ⟨M, M, true, false⟩⟩

/-! ## Basic facts about the primitives -/

theorem dot_vecSub_self (a : Vec) : dot (vecSub a a) (vecSub a a) = 0 := by
  induction a with
  | nil => simp [dot, vecSub]
  | cons x xs ih => simp [dot, vecSub, List.zipWith] at ih ⊢

/-! ## Lemmas about the scan loop -/

theorem setEntry_eq_some {m : Mat} {j k : ℕ} {m2 : Mat} (h : setEntry m j k = some m2) :
    j < m.length ∧ m2 = m.set j ((m.getD j []).set k 1) := by
  by_cases hj : j < m.length
  · refine ⟨hj, ?_⟩
    simp only [setEntry, if_pos hj, Option.some.injEq] at h
    exact h.symm
  · simp only [setEntry, if_neg hj] at h
    exact absurd h (by simp)

theorem setEntry_length {m : Mat} {j k : ℕ} {m2 : Mat} (h : setEntry m j k = some m2) :
    m2.length = m.length := by
  obtain ⟨hj, rfl⟩ := setEntry_eq_some h
  simp

theorem setEntry_isSome {m : Mat} {j k : ℕ} (hj : j < m.length) :
    setEntry m j k = some (m.set j ((m.getD j []).set k 1)) := by
  simp [setEntry, hj]

theorem oneHotLoop_length (fuel : ℕ) :
    ∀ t pad vec i j sp v, oneHotLoop t pad fuel vec i j sp = some v → v.length = vec.length := by
  induction fuel with
  | zero => intro t pad vec i j sp v h; simp [oneHotLoop] at h
  | succ fuel ih =>
    intro t pad vec i j sp v h
    simp only [oneHotLoop] at h
    split at h
    · simp at h
    · rename_i sym i2 hps
      split at h
      · simp at h
      · rename_i vec2 hse
        split at h
        · simp at h
        · rename_i c hgc
          split at h
          · rw [setEntry_length h, setEntry_length hse]
          · rw [ih t pad vec2 i2 (j + 1) (some sym) v h, setEntry_length hse]

theorem oneHotLoop_negPad (fuel : ℕ) :
    ∀ t pad1 pad2 vec i j sp, pad1 < 0 → pad2 < 0 →
    oneHotLoop t pad1 fuel vec i j sp = oneHotLoop t pad2 fuel vec i j sp := by
  induction fuel with
  | zero => intros; rfl
  | succ fuel ih =>
    intro t pad1 pad2 vec i j sp h1 h2
    simp only [oneHotLoop]
    cases pickSym (tokStep t i) sp i with
    | none => rfl
    | some si =>
      obtain ⟨sym, i2⟩ := si
      dsimp only
      cases setEntry vec j (symIndex sym) with
      | none => rfl
      | some vec2 =>
        dsimp only
        cases t.get? i2 with
        | none => rfl
        | some c =>
          dsimp only
          have hiff : (c = '.' ∨ ((j + 1 : ℤ) ≥ pad1 - 1 ∧ pad1 > 0)) ↔
              (c = '.' ∨ ((j + 1 : ℤ) ≥ pad2 - 1 ∧ pad2 > 0)) := by
            constructor <;> rintro (hc | ⟨_, hp⟩)
            · exact Or.inl hc
            · exact absurd hp (by omega)
            · exact Or.inl hc
            · exact absurd hp (by omega)
          by_cases hc : c = '.' ∨ ((j + 1 : ℤ) ≥ pad1 - 1 ∧ pad1 > 0)
          · rw [if_pos hc, if_pos (hiff.mp hc)]
          · rw [if_neg hc, if_neg fun hx => hc (hiff.mpr hx)]
            exact ih t pad1 pad2 vec2 i2 (j + 1) (some sym) h1 h2

theorem oneHotLoop_isSome (fuel : ℕ) :
    ∀ t pad vec i j sp,
    t.get? (t.length - 1) = some '.' →
    i + 1 < t.length →
    vec.length - j ≤ fuel →
    ((pad < 0 ∧ vec.length = t.length ∧ j ≤ i) ∨
      (2 ≤ pad ∧ (vec.length : ℤ) = pad ∧ (j : ℤ) < pad - 1)) →
    (oneHotLoop t pad fuel vec i j sp).isSome := by
  induction fuel with
  | zero =>
    intro t pad vec i j sp hdot hi hfuel hinv
    exfalso
    rcases hinv with ⟨_, hlen, hji⟩ | ⟨hpad, hlen, hj⟩ <;> omega
  | succ fuel ih =>
    intro t pad vec i j sp hdot hi hfuel hinv
    have hjlt : j < vec.length := by
      rcases hinv with ⟨_, hlen, hji⟩ | ⟨hpad, hlen, hj⟩ <;> omega
    have hi0 : i < t.length := by omega
    have hc : t.get? (i + 1) = some (t.get ⟨i + 1, hi⟩) := List.get?_eq_get hi
    have hc0 : t.get? i = some (t.get ⟨i, hi0⟩) := List.get?_eq_get hi0
    obtain ⟨sym, i2, htok, hge, hlt⟩ :
        ∃ sym i2, tokStep t i = some (sym, i2) ∧ i + 1 ≤ i2 ∧ i2 < t.length := by
      by_cases hmem : t.get ⟨i + 1, hi⟩ ∈ ['r', 'i', 'l']
      · refine ⟨(t.drop i).take 2, i + 2, ?_, by omega, ?_⟩
        · simp only [tokStep, hc, if_pos hmem]
        · have hne : t.get ⟨i + 1, hi⟩ ≠ '.' := by
            intro hE
            rw [hE] at hmem
            simp at hmem
          rcases Nat.lt_or_ge (i + 2) t.length with h | h
          · exact h
          · exfalso
            have hE : i + 1 = t.length - 1 := by omega
            have hdots : t.get? (i + 1) = some '.' := by rw [hE]; exact hdot
            have h2 := hc.symm.trans hdots
            injection h2 with hcc
            exact hne hcc
      · refine ⟨[t.get ⟨i, hi0⟩], i + 1, ?_, by omega, by omega⟩
        simp only [tokStep, hc, if_neg hmem, hc0]
    simp only [oneHotLoop, pickSym, htok]
    rw [setEntry_isSome hjlt]
    have hc2 : t.get? i2 = some (t.get ⟨i2, hlt⟩) := List.get?_eq_get hlt
    rw [hc2]
    dsimp only
    have hlen2 : (vec.set j ((vec.getD j []).set (symIndex sym) 1)).length = vec.length := by
      simp
    by_cases hcond : t.get ⟨i2, hlt⟩ = '.' ∨ ((j + 1 : ℤ) ≥ pad - 1 ∧ pad > 0)
    · rw [if_pos hcond]
      have hj1 : j + 1 < (vec.set j ((vec.getD j []).set (symIndex sym) 1)).length := by
        rw [hlen2]
        rcases hinv with ⟨_, hlen, hji⟩ | ⟨hpad, hlen, hj⟩ <;> omega
      rw [setEntry_isSome hj1]
      rfl
    · rw [if_neg hcond]
      push_neg at hcond
      obtain ⟨hcne, hcpad⟩ := hcond
      have hi2ne : i2 ≠ t.length - 1 := by
        intro hE
        have hdots : t.get? i2 = some '.' := by rw [hE]; exact hdot
        have h2 := hc2.symm.trans hdots
        injection h2 with hcc
        exact hcne hcc
      have hi2' : i2 + 1 < t.length := by omega
      apply ih
      · exact hdot
      · exact hi2'
      · rw [hlen2]; omega
      · rcases hinv with ⟨hpad, hlen, hji⟩ | ⟨hpad, hlen, hj⟩
        · exact Or.inl ⟨hpad, by rw [hlen2]; exact hlen, by omega⟩
        · refine Or.inr ⟨hpad, by rw [hlen2]; exact hlen, ?_⟩
          by_cases hx : (↑j + 1 : ℤ) ≥ pad - 1
          · exact absurd (hcpad hx) (by omega)
          · omega

theorem indexOf_dot : one_hot.indexOf ['.'] = 34 := by decide

theorem symIndex_ne_dot {sym : List Char} (h : sym ≠ ['.']) : symIndex sym ≠ 34 := by
  have key : ∀ s ∈ one_hot, one_hot.indexOf s = 34 → s = ['.'] := by decide
  unfold symIndex
  by_cases hmem : sym ∈ one_hot
  · rw [if_pos hmem]
    intro h34
    exact h (key sym hmem h34)
  · rw [if_neg hmem]
    decide

theorem getD_set_ne (l : List ℚ) (n m : ℕ) (a d : ℚ) (h : n ≠ m) :
    (l.set n a).getD m d = l.getD m d := by
  rw [List.getD_eq_getD_get?, List.getD_eq_getD_get?, List.get?_eq_getElem?,
    List.get?_eq_getElem?, List.getElem?_set_ne h]

theorem getD_set_self (l : List ℚ) (n : ℕ) (a d : ℚ) (h : n < l.length) :
    (l.set n a).getD n d = a := by
  rw [List.getD_eq_getElem _ _ (by simpa using h)]
  simp [List.getElem_set]

theorem getD_mem_row (m : Mat) (n : ℕ) (h : n < m.length) : m.getD n [] ∈ m := by
  rw [List.getD_eq_getElem _ _ h]
  exact List.getElem_mem h

theorem countP_set_one {α : Type} (p : α → Bool) :
    ∀ (l : List α) (n : ℕ) (r : α), n < l.length → (∀ a ∈ l, p a = false) → p r = true →
    (l.set n r).countP p = 1 := by
  intro l
  induction l with
  | nil => intro n r h; simp at h
  | cons x xs ihx =>
    intro n r hn hall hp
    cases n with
    | zero =>
      simp only [List.set_cons_zero, List.countP_cons, hp]
      have : xs.countP p = 0 := List.countP_eq_zero.mpr
        (fun a ha => by simp [hall a (List.mem_cons_of_mem _ ha)])
      simp [this]
    | succ n =>
      simp only [List.set_cons_succ, List.countP_cons]
      have hx : p x = false := hall x (List.mem_cons_self x xs)
      rw [ihx n r (by simpa using hn) (fun a ha => hall a (List.mem_cons_of_mem _ ha)) hp]
      simp [hx]

theorem pickSym_ne_dot {t : List Char} {i : ℕ} {sp : Option (List Char)}
    {sym : List Char} {i2 : ℕ}
    (hti : ∀ c0, t.get? i = some c0 → c0 ≠ '.')
    (hsp : ∀ s, sp = some s → s ≠ ['.'])
    (hps : pickSym (tokStep t i) sp i = some (sym, i2)) : sym ≠ ['.'] := by
  cases htk : tokStep t i with
  | none =>
    rw [htk] at hps
    cases hspc : sp with
    | none => rw [hspc] at hps; simp [pickSym] at hps
    | some s =>
      rw [hspc] at hps
      simp only [pickSym, Option.some.injEq, Prod.mk.injEq] at hps
      rw [← hps.1]
      exact hsp s hspc
  | some si =>
    rw [htk] at hps
    simp only [pickSym, Option.some.injEq] at hps
    subst hps
    unfold tokStep at htk
    cases hg : t.get? (i + 1) with
    | none => rw [hg] at htk; simp at htk
    | some c1 =>
      rw [hg] at htk
      dsimp only at htk
      by_cases hm : c1 ∈ ['r', 'i', 'l']
      · rw [if_pos hm] at htk
        simp only [Option.some.injEq, Prod.mk.injEq] at htk
        obtain ⟨hsymEq, _⟩ := htk
        have hi1 : i + 1 < t.length := by
          cases hgn : t.get? (i + 1) with
          | none => rw [hgn] at hg; simp at hg
          | some _ => exact (List.get?_eq_some.mp hg).1
        intro hcon
        rw [hcon] at hsymEq
        have : ((t.drop i).take 2).length = 2 := by
          simp [List.length_take, List.length_drop]
          omega
        rw [hsymEq] at this
        simp at this
      · rw [if_neg hm] at htk
        cases hg0 : t.get? i with
        | none => rw [hg0] at htk; simp at htk
        | some c0 =>
          rw [hg0] at htk
          simp only [Option.some.injEq, Prod.mk.injEq] at htk
          obtain ⟨hsymEq, _⟩ := htk
          rw [← hsymEq]
          intro hcon
          have : c0 = '.' := by injection hcon
          exact hti c0 hg0 this

theorem oneHotLoop_termCount (fuel : ℕ) :
    ∀ t pad vec i j sp v,
    (∀ c0, t.get? i = some c0 → c0 ≠ '.') →
    (∀ s, sp = some s → s ≠ ['.']) →
    (∀ r ∈ vec, r.length = 35 ∧ r.getD 34 0 = 0) →
    oneHotLoop t pad fuel vec i j sp = some v →
    v.countP isTermRow = 1 := by
  induction fuel with
  | zero => intro t pad vec i j sp v _ _ _ h; simp [oneHotLoop] at h
  | succ fuel ih =>
    intro t pad vec i j sp v hti hsp hinv h
    simp only [oneHotLoop] at h
    split at h
    · simp at h
    · rename_i sym i2 hps
      have hsym : sym ≠ ['.'] := pickSym_ne_dot hti hsp hps
      have hk : symIndex sym ≠ 34 := symIndex_ne_dot hsym
      split at h
      · simp at h
      · rename_i vec2 hse
        obtain ⟨hjlt, hvec2⟩ := setEntry_eq_some hse
        have hinv2 : ∀ r ∈ vec2, r.length = 35 ∧ r.getD 34 0 = 0 := by
          rw [hvec2]
          intro r hr
          rcases List.mem_or_eq_of_mem_set hr with hr | rfl
          · exact hinv r hr
          · obtain ⟨hrl, hrd⟩ := hinv (vec.getD j []) (getD_mem_row vec j hjlt)
            refine ⟨by rw [List.length_set]; exact hrl, ?_⟩
            rw [getD_set_ne _ _ _ _ _ hk]
            exact hrd
        split at h
        · simp at h
        · rename_i c hgc
          split at h
          · rename_i hcond
            obtain ⟨hj1, hv⟩ := setEntry_eq_some h
            rw [hv, indexOf_dot]
            apply countP_set_one
            · exact hj1
            · intro a ha
              obtain ⟨_, had⟩ := hinv2 a ha
              simp only [isTermRow, had]
              decide
            · obtain ⟨hrl, _⟩ := hinv2 (vec2.getD (j + 1) []) (getD_mem_row vec2 (j + 1) hj1)
              have : ((vec2.getD (j + 1) []).set 34 1).getD 34 0 = 1 :=
                getD_set_self _ _ _ _ (by rw [hrl]; omega)
              simp only [isTermRow, this]
              decide
          · rename_i hcond
            apply ih t pad vec2 i2 (j + 1) (some sym) v ?_ ?_ hinv2 h
            · intro c0 hc0
              have : c0 = c := by
                have h2 := hgc.symm.trans hc0
                injection h2 with e
                exact e.symm
              rw [this]
              intro hdotc
              exact hcond (Or.inl hdotc)
            · intro s hs
              have : s = sym := by injection hs with e; exact e.symm
              rw [this]
              exact hsym

theorem take_two_of_get? {t : List Char} {i : ℕ} {a b : Char}
    (ha : t.get? i = some a) (hb : t.get? (i + 1) = some b) :
    (t.drop i).take 2 = [a, b] := by
  obtain ⟨hi, hga⟩ := List.get?_eq_some.mp ha
  obtain ⟨hi1, hgb⟩ := List.get?_eq_some.mp hb
  rw [List.drop_eq_getElem_cons hi, List.drop_eq_getElem_cons hi1]
  have e1 : t[i] = a := by rw [← List.get_eq_getElem t ⟨i, hi⟩]; exact hga
  have e2 : t[i + 1] = b := by rw [← List.get_eq_getElem t ⟨i + 1, hi1⟩]; exact hgb
  rw [e1, e2]
  rfl

theorem oneHotLoop_agree (fuel : ℕ) :
    ∀ t1 t2 d pad vec i j sp,
    (∀ k, k ≤ d → t1.get? k = t2.get? k) →
    t1.get? d = some '.' →
    i < d →
    oneHotLoop t1 pad fuel vec i j sp = oneHotLoop t2 pad fuel vec i j sp := by
  induction fuel with
  | zero => intros; rfl
  | succ fuel ih =>
    intro t1 t2 d pad vec i j sp hag hdot hid
    have hd1 : d < t1.length := (List.get?_eq_some.mp hdot).1
    obtain ⟨c1, hc1⟩ : ∃ c, t1.get? (i + 1) = some c :=
      ⟨t1.get ⟨i + 1, by omega⟩, List.get?_eq_get (by omega)⟩
    have hc1' : t2.get? (i + 1) = some c1 := by rw [← hag (i + 1) hid]; exact hc1
    obtain ⟨c0, hc0⟩ : ∃ c, t1.get? i = some c :=
      ⟨t1.get ⟨i, by omega⟩, List.get?_eq_get (by omega)⟩
    have hc0' : t2.get? i = some c0 := by rw [← hag i (by omega)]; exact hc0
    obtain ⟨sym, i2, htk1, htk2, hge, hle⟩ :
        ∃ sym i2, tokStep t1 i = some (sym, i2) ∧ tokStep t2 i = some (sym, i2) ∧
          i + 1 ≤ i2 ∧ i2 ≤ d := by
      by_cases hm : c1 ∈ ['r', 'i', 'l']
      · have hne : c1 ≠ '.' := by intro hE; rw [hE] at hm; simp at hm
        have hi1d : i + 1 ≠ d := by
          intro hE
          have hdd : t1.get? (i + 1) = some '.' := by rw [hE]; exact hdot
          have h2 := hc1.symm.trans hdd
          injection h2 with e
          exact hne e
        have hslice : (t1.drop i).take 2 = [c0, c1] := take_two_of_get? hc0 hc1
        have hslice2 : (t2.drop i).take 2 = [c0, c1] := take_two_of_get? hc0' hc1'
        refine ⟨[c0, c1], i + 2, ?_, ?_, by omega, by omega⟩
        · simp only [tokStep, hc1, if_pos hm, hslice]
        · simp only [tokStep, hc1', if_pos hm, hslice2]
      · refine ⟨[c0], i + 1, ?_, ?_, by omega, hid⟩
        · simp only [tokStep, hc1, if_neg hm, hc0]
        · simp only [tokStep, hc1', if_neg hm, hc0']
    simp only [oneHotLoop, pickSym, htk1, htk2]
    cases hse : setEntry vec j (symIndex sym) with
    | none => rfl
    | some vec2 =>
      dsimp only
      have hgi2 : t1.get? i2 = t2.get? i2 := hag i2 hle
      rw [← hgi2]
      cases hgc : t1.get? i2 with
      | none => rfl
      | some c =>
        dsimp only
        by_cases hcond : c = '.' ∨ ((j + 1 : ℤ) ≥ pad - 1 ∧ pad > 0)
        · simp only [if_pos hcond]
        · simp only [if_neg hcond]
          apply ih t1 t2 d pad vec2 i2 (j + 1) (some sym) hag hdot
          have hne : c ≠ '.' := fun hE => hcond (Or.inl hE)
          have hi2d : i2 ≠ d := by
            intro hE
            have hdd : t1.get? i2 = some '.' := by rw [hE]; exact hdot
            have h2 := hgc.symm.trans hdd
            injection h2 with e
            exact hne e
          omega

/-! ## Top-level facts about `get_one_hot` -/

theorem data_ne_nil {s : String} (h : s ≠ "") : s.data ≠ [] := by
  intro hd
  exact h (String.ext (by rw [hd]))

theorem sentinel_get? (l : List Char) :
    (l ++ ['.']).get? ((l ++ ['.']).length - 1) = some '.' := by
  have hl : (l ++ ['.']).length - 1 = l.length := by simp
  rw [hl, List.get?_append_right le_rfl]
  simp

theorem zerosMat_inv (r c : ℕ) (hc : 34 < c) :
    ∀ row ∈ zerosMat r c, row.length = c ∧ row.getD 34 0 = 0 := by
  intro row hrow
  have := List.eq_of_mem_replicate hrow
  subst this
  refine ⟨by simp, ?_⟩
  rw [List.getD_eq_getElem _ _ (by simpa using hc)]
  simp

/-- Totality and row count of `get_one_hot` with positive padding: any
nonempty input and `pad_len ≥ 2` yield `pad_len` rows without an index
error. -/
theorem get_one_hot_isSome (s : String) (pad : Int) (hs : s ≠ "") (hp : 2 ≤ pad) :
    ∃ v, get_one_hot s pad = some v ∧ v.length = pad.toNat := by
  have hd := data_ne_nil hs
  have hlen : 1 ≤ s.data.length := by
    cases hx : s.data with
    | nil => exact absurd hx hd
    | cons a l => simp [hx]
  have hnneg : ¬ pad < 0 := by omega
  simp only [get_one_hot, if_neg hnneg]
  have hvlen : (zerosMat pad.toNat 35).length = pad.toNat := by
    simp [zerosMat]
  have hi1 : 0 + 1 < (s.data ++ ['.']).length := by
    rw [List.length_append]
    simp only [List.length_cons, List.length_nil]
    omega
  have hfuel : (zerosMat pad.toNat 35).length - 0 ≤ (zerosMat pad.toNat 35).length + 1 := by
    omega
  have hinv : (pad < 0 ∧ (zerosMat pad.toNat 35).length = (s.data ++ ['.']).length ∧ 0 ≤ 0) ∨
      (2 ≤ pad ∧ ((zerosMat pad.toNat 35).length : ℤ) = pad ∧ ((0 : ℕ) : ℤ) < pad - 1) :=
    Or.inr ⟨hp, by rw [hvlen]; exact Int.toNat_of_nonneg (by omega), by omega⟩
  have hsome := oneHotLoop_isSome ((zerosMat pad.toNat 35).length + 1)
    (s.data ++ ['.']) pad (zerosMat pad.toNat 35) 0 0 none
    (sentinel_get? s.data) hi1 hfuel hinv
  obtain ⟨v, hv⟩ := Option.isSome_iff_exists.mp hsome
  refine ⟨v, hv, ?_⟩
  rw [oneHotLoop_length _ _ _ _ _ _ _ _ hv, hvlen]

/-- Totality and row count of `get_one_hot` with unspecified (negative)
padding: any nonempty input yields `length + 1` rows. -/
theorem get_one_hot_isSome_neg (s : String) (pad : Int) (hs : s ≠ "") (hp : pad < 0) :
    ∃ v, get_one_hot s pad = some v ∧ v.length = s.length + 1 := by
  have hd := data_ne_nil hs
  have hlen : 1 ≤ s.data.length := by
    cases hx : s.data with
    | nil => exact absurd hx hd
    | cons a l => simp [hx]
  simp only [get_one_hot, if_pos hp]
  have hvlen : (zerosMat (s.data ++ ['.']).length 35).length = (s.data ++ ['.']).length := by
    simp [zerosMat]
  have hi1 : 0 + 1 < (s.data ++ ['.']).length := by
    rw [List.length_append]
    simp only [List.length_cons, List.length_nil]
    omega
  have hfuel : (zerosMat (s.data ++ ['.']).length 35).length - 0 ≤
      (zerosMat (s.data ++ ['.']).length 35).length + 1 := by
    omega
  have hsome := oneHotLoop_isSome ((zerosMat (s.data ++ ['.']).length 35).length + 1)
    (s.data ++ ['.']) pad (zerosMat (s.data ++ ['.']).length 35) 0 0 none
    (sentinel_get? s.data) hi1 hfuel
    (Or.inl ⟨hp, hvlen, le_rfl⟩)
  obtain ⟨v, hv⟩ := Option.isSome_iff_exists.mp hsome
  refine ⟨v, hv, ?_⟩
  rw [oneHotLoop_length _ _ _ _ _ _ _ _ hv, hvlen]
  rw [List.length_append]
  rfl

theorem get?_append_prefix_dot (l r : List Char) (k : ℕ) (hk : k ≤ l.length) :
    (l ++ '.' :: r).get? k = (l ++ ['.']).get? k := by
  rcases Nat.lt_or_ge k l.length with h | h
  · rw [List.get?_append h, List.get?_append h]
  · have hkl : k = l.length := by omega
    subst hkl
    rw [List.get?_append_right le_rfl, List.get?_append_right le_rfl]
    simp

/-! ## Claim theorems for the encoder -/

/-- **C2**, counterexample to the claim as stated: `get_one_hot` raises on
the empty string (the bare `except` leaves `sym` unbound, an
`UnboundLocalError`), and an input starting with a `'.'` character
produces two terminator rows, not one. -/
theorem encoder_safety_cex :
    get_one_hot "" 5 = none ∧
      (get_one_hot ".C" 5).map (fun v => v.countP isTermRow) = some 2 := by
  constructor
  · decide
  · decide

/-- **C2** (amended): for every nonempty input string that does not begin
with `'.'` and every `padded_length ≥ 2`, `get_one_hot` returns — without
raising, hence without any read past the sentinel-appended string — a
tensor with exactly `padded_length` rows and exactly one terminator row. -/
theorem encoder_safety (s : String) (pad : Int) (hs : s ≠ "")
    (hhead : s.data.head? ≠ some '.') (hp : 2 ≤ pad) :
    ∃ v, get_one_hot s pad = some v ∧ v.length = pad.toNat ∧
      v.countP isTermRow = 1 := by
  obtain ⟨v, hv, hvl⟩ := get_one_hot_isSome s pad hs hp
  refine ⟨v, hv, hvl, ?_⟩
  have hd := data_ne_nil hs
  have hlen : 1 ≤ s.data.length := by
    cases hx : s.data with
    | nil => exact absurd hx hd
    | cons a l => simp [hx]
  have hnneg : ¬ pad < 0 := by omega
  simp only [get_one_hot, if_neg hnneg] at hv
  have hti : ∀ c0, (s.data ++ ['.']).get? 0 = some c0 → c0 ≠ '.' := by
    intro c0 hc0
    rw [List.get?_append (by omega), List.get?_zero] at hc0
    intro hE
    rw [hE] at hc0
    exact hhead hc0
  have hsp : ∀ s', (none : Option (List Char)) = some s' → s' ≠ ['.'] := by
    intro s' hs'
    simp at hs'
  exact oneHotLoop_termCount _ _ _ _ _ _ _ _ hti hsp
    (zerosMat_inv _ _ (by omega)) hv

/-- **C2** witness: the spec's Concrete scenario 1, `encode("CCO", 5)`. -/
theorem encoder_safety_witness :
    ("CCO" : String) ≠ "" ∧ ("CCO" : String).data.head? ≠ some '.' ∧ (2 : ℤ) ≤ 5 ∧
      ∃ v, get_one_hot "CCO" 5 = some v ∧ v.length = (5 : ℤ).toNat ∧
        v.countP isTermRow = 1 :=
  ⟨by decide, by decide, by decide,
    encoder_safety "CCO" 5 (by decide) (by decide) (by decide)⟩

/-- **C3**, counterexample to the claim as stated: in `"Cr"` the pair is
not a recognized two-letter atom, yet the scanner still consumes both
characters as one token (because the next character is `'r'`) and maps it
to the wildcard row: row 0 has its 1 in the `'X'` column (index 33), not in
the `'C'` column (index 0), and row 1 is already the terminator. -/
theorem tokenizer_two_char_cex :
    (get_one_hot "Cr" 5).map
      (fun v => ((v.getD 0 []).getD 0 0, (v.getD 0 []).getD 33 0,
                 (v.getD 1 []).getD 34 0)) = some (0, 1, 1) := by
  decide

/-- **C3** (amended): at a scan position with a successor character, the
tokenizer consumes two characters as a single token exactly when the NEXT
character is `'r'`, `'i'` or `'l'` — regardless of whether the pair is a
recognized two-letter atom — and one character otherwise. -/
theorem tokenizer_two_char (t : List Char) (i : ℕ) (c c0 : Char)
    (h1 : t.get? (i + 1) = some c) (h0 : t.get? i = some c0) :
    tokStep t i = (if c = 'r' ∨ c = 'i' ∨ c = 'l'
      then some ((t.drop i).take 2, i + 2)
      else some ([c0], i + 1)) ∧
    ((t.drop i).take 2).length = 2 := by
  constructor
  · simp only [tokStep, h1, h0]
    by_cases hm : c ∈ ['r', 'i', 'l']
    · rw [if_pos hm, if_pos (by simpa using hm)]
    · rw [if_neg hm, if_neg (by simpa using hm)]
  · have hi1 : i + 1 < t.length := (List.get?_eq_some.mp h1).1
    rw [List.length_take, List.length_drop]
    omega

/-- **C3** witness: the recognized atom `"Cl"` is consumed as one
two-character token. -/
theorem tokenizer_two_char_witness :
    (['C', 'l', '.'].get? (0 + 1) = some 'l') ∧ (['C', 'l', '.'].get? 0 = some 'C') ∧
      (tokStep ['C', 'l', '.'] 0 = (if 'l' = 'r' ∨ 'l' = 'i' ∨ 'l' = 'l'
          then some ((['C', 'l', '.'].drop 0).take 2, 0 + 2)
          else some (['C'], 0 + 1)) ∧
        ((['C', 'l', '.'].drop 0).take 2).length = 2) :=
  ⟨by decide, by decide, tokenizer_two_char ['C', 'l', '.'] 0 'l' 'C' (by decide) (by decide)⟩

/-- **C8**, counterexample to the claim as stated: with unspecified
padding the empty string still raises (`UnboundLocalError` after the
caught `IndexError`), so no tensor of `0 + 1` rows is returned. -/
theorem encoder_unpadded_cex : get_one_hot "" (-1) = none := by decide

/-- **C8** (amended): for every NONEMPTY input string and every negative
`pad_len`, `get_one_hot` returns a tensor of `length + 1` rows, and the
result does not depend on which negative value is passed (the
forced-truncation stop condition, which requires `pad_len > 0`, is never
taken). -/
theorem encoder_unpadded (s : String) (pad : Int) (hs : s ≠ "") (hp : pad < 0) :
    ∃ v, get_one_hot s pad = some v ∧ v.length = s.length + 1 ∧
      get_one_hot s pad = get_one_hot s (-1) := by
  obtain ⟨v, hv, hvl⟩ := get_one_hot_isSome_neg s pad hs hp
  refine ⟨v, hv, hvl, ?_⟩
  simp only [get_one_hot, if_pos hp, if_pos (show (-1 : ℤ) < 0 by norm_num)]
  exact oneHotLoop_negPad _ _ _ _ _ _ _ _ hp (by norm_num)

/-- **C8** witness: `"CCO"` with a negative pad length gives 4 rows. -/
theorem encoder_unpadded_witness :
    ("CCO" : String) ≠ "" ∧ (-2 : ℤ) < 0 ∧
      ∃ v, get_one_hot "CCO" (-2) = some v ∧ v.length = ("CCO" : String).length + 1 ∧
        get_one_hot "CCO" (-2) = get_one_hot "CCO" (-1) :=
  ⟨by decide, by decide, encoder_unpadded "CCO" (-2) (by decide) (by decide)⟩

/-- **C10**, counterexample to the claim as stated: with `A = ""` the
left-hand side scans past the leading dot and returns a tensor while the
right-hand side raises, so `get_one_hot (A ++ "." ++ B) L = get_one_hot A L`
does not hold for every pair of strings. -/
theorem encoder_dot_truncation_cex :
    get_one_hot ("" ++ "." ++ "C") 5 ≠ get_one_hot "" 5 := by decide

/-- **C10** (amended): for every NONEMPTY `A`, every `B` and every
`padded_length ≥ 2`, everything after the first dot is discarded:
`get_one_hot (A ++ "." ++ B)` equals `get_one_hot A` (the scan stops at
the first `'.'` it reaches after at least one consumed token). -/
theorem encoder_dot_truncation (A B : String) (pad : Int) (hA : A ≠ "") (hp : 2 ≤ pad) :
    get_one_hot (A ++ "." ++ B) pad = get_one_hot A pad := by
  have hd := data_ne_nil hA
  have hlen : 1 ≤ A.data.length := by
    cases hx : A.data with
    | nil => exact absurd hx hd
    | cons a l => simp [hx]
  have hnneg : ¬ pad < 0 := by omega
  have hdata : (A ++ "." ++ B).data = A.data ++ '.' :: B.data := by
    rw [String.data_append, String.data_append]
    simp
  simp only [get_one_hot, hdata, if_neg hnneg]
  have hassoc : (A.data ++ '.' :: B.data) ++ ['.'] = A.data ++ '.' :: (B.data ++ ['.']) := by
    simp
  rw [hassoc]
  apply oneHotLoop_agree _ _ _ A.data.length
  · intro k hk
    exact get?_append_prefix_dot A.data (B.data ++ ['.']) k hk
  · rw [get?_append_prefix_dot A.data (B.data ++ ['.']) A.data.length le_rfl]
    rw [List.get?_append_right le_rfl]
    simp
  · omega

/-- **C10** witness: `get_one_hot ("C" ++ "." ++ "N") 5 = get_one_hot "C" 5`. -/
theorem encoder_dot_truncation_witness :
    ("C" : String) ≠ "" ∧ (2 : ℤ) ≤ 5 ∧
      get_one_hot ("C" ++ "." ++ "N") 5 = get_one_hot "C" 5 :=
  ⟨by decide, by decide, encoder_dot_truncation "C" "N" 5 (by decide) (by decide)⟩

/-! ## Claim theorems for `calculate_frechet_distance` -/

theorem diagImagOk_iff (r : SqrtmResult) :
    diagImagOk r = true ↔
      ∀ i < min r.im.length (r.im.headD []).length, |matEntry r.im i i| ≤ 1 / 1000 := by
  simp [diagImagOk, List.all_eq_true, List.mem_range]

/-- Shared: on the regularization path (first square root non-finite,
recomputed root passing the imaginary check) the function returns `ok`
with the single warning naming `eps`, and the value combines the traces of
the ORIGINAL covariance matrices with the trace of the recomputed root. -/
theorem frechet_reg_path (S : Sqrtm) (mu1 : Vec) (sigma1 : Mat) (mu2 : Vec)
    (sigma2 : Mat) (eps : ℚ)
    (h1 : mu1.length = mu2.length) (h2 : matShape sigma1 = matShape sigma2)
    (hnf : (S.run (matMul sigma1 sigma2)).allFinite = false)
    (hok : (S.run (matMul (matAdd sigma1 (eyeEps sigma1.length eps))
        (matAdd sigma2 (eyeEps sigma1.length eps)))).isComplex = true →
      diagImagOk (S.run (matMul (matAdd sigma1 (eyeEps sigma1.length eps))
        (matAdd sigma2 (eyeEps sigma1.length eps)))) = true) :
    calculate_frechet_distance S mu1 sigma1 mu2 sigma2 eps =
      .ok (frechetVal (vecSub mu1 mu2) sigma1 sigma2
        (S.run (matMul (matAdd sigma1 (eyeEps sigma1.length eps))
          (matAdd sigma2 (eyeEps sigma1.length eps)))).re,
        [warnMsg eps]) := by
  have hg1 : ¬ (mu1.length ≠ mu2.length) := by simp [h1]
  have hg2 : ¬ (matShape sigma1 ≠ matShape sigma2) := by simp [h2]
  simp only [calculate_frechet_distance, covmeanOf, if_neg hg1, if_neg hg2, hnf,
    Bool.false_eq_true, if_false]
  cases hc : (S.run (matMul (matAdd sigma1 (eyeEps sigma1.length eps))
      (matAdd sigma2 (eyeEps sigma1.length eps)))).isComplex
  · simp [hc]
  · simp [hc, hok hc]

/-- **C1** (confirmed, exact-arithmetic model): with identical inputs and
a square-root backend that returns the exact principal root
`sqrtm(sigma·sigma) = sigma` (finite, real-typed — what scipy computes for
a PSD covariance in exact arithmetic), the distance is exactly 0: the
mean-difference term vanishes and the traces cancel. -/
theorem frechet_identical_zero (S : Sqrtm) (mu : Vec) (sigma : Mat) (eps : ℚ)
    (hfin : (S.run (matMul sigma sigma)).allFinite = true)
    (hreal : (S.run (matMul sigma sigma)).isComplex = false)
    (hsqrt : (S.run (matMul sigma sigma)).re = sigma) :
    calculate_frechet_distance S mu sigma mu sigma eps = .ok (0, []) := by
  have hval : frechetVal (vecSub mu mu) sigma sigma sigma = 0 := by
    unfold frechetVal
    rw [dot_vecSub_self]
    ring
  simp [calculate_frechet_distance, covmeanOf, hfin, hreal, hsqrt, hval]

/-- **C1** witness at `mu = [1]`, `sigma = [[2]]`. -/
theorem frechet_identical_zero_witness :
    ((sqrtmId.run (matMul [[2]] [[2]])).allFinite = true) ∧
    ((sqrtmId.run (matMul [[2]] [[2]])).isComplex = false) ∧
    ((sqrtmId.run (matMul [[2]] [[2]])).re = [[2]]) ∧
    calculate_frechet_distance sqrtmId [1] [[2]] [1] [[2]] (1 / 1000000) = .ok (0, []) :=
  ⟨by decide, by decide, by decide,
    frechet_identical_zero sqrtmId [1] [[2]] (1 / 1000000) (by decide) (by decide) (by decide)⟩

theorem matMul_z2 : matMul z2 z2 = z2 := by
  simp [matMul, matShape, z2, List.range_succ]

theorem eyeEps_two : eyeEps 2 (1 / 1000000) = epsI2 := by
  norm_num [eyeEps, epsI2, List.range_succ]

theorem matAdd_z2 : matAdd z2 epsI2 = epsI2 := by
  simp [matAdd, z2, epsI2]

theorem regProd_z2 : matMul epsI2 epsI2 =
    [[1 / 1000000000000, 0], [0, 1 / 1000000000000]] := by
  norm_num [matMul, matShape, epsI2, List.range_succ]

theorem regArg_z2 : matMul (matAdd z2 (eyeEps z2.length (1 / 1000000)))
    (matAdd z2 (eyeEps z2.length (1 / 1000000))) =
    [[1 / 1000000000000, 0], [0, 1 / 1000000000000]] := by
  have hl : z2.length = 2 := rfl
  rw [hl, eyeEps_two, matAdd_z2, regProd_z2]

theorem run_z2 : sqrtmScipyZero.run z2 = ⟨z2, z2, false, false⟩ := by
  simp [sqrtmScipyZero]

theorem run_epsSq : sqrtmScipyZero.run [[1 / 1000000000000, 0], [0, 1 / 1000000000000]] =
    ⟨epsI2, z2, true, false⟩ := by
  have hne : ([[1 / 1000000000000, 0], [0, 1 / 1000000000000]] : Mat) ≠ z2 := by
    norm_num [z2]
  simp only [sqrtmScipyZero]
  rw [if_neg hne]

theorem frechetVal_z2 :
    frechetVal (vecSub [0, 0] [0, 0]) z2 z2 epsI2 = -(1 / 250000) := by
  norm_num [frechetVal, dot, vecSub, trace, matEntry, z2, epsI2, List.range_succ]

theorem z2_allFinite_false : (sqrtmScipyZero.run (matMul z2 z2)).allFinite = false := by
  rw [matMul_z2, run_z2]

theorem z2_reg_complex_check :
    (sqrtmScipyZero.run (matMul (matAdd z2 (eyeEps z2.length (1 / 1000000)))
      (matAdd z2 (eyeEps z2.length (1 / 1000000))))).isComplex = true →
    diagImagOk (sqrtmScipyZero.run (matMul (matAdd z2 (eyeEps z2.length (1 / 1000000)))
      (matAdd z2 (eyeEps z2.length (1 / 1000000))))) = true := by
  rw [regArg_z2, run_epsSq]
  intro hcc
  exact absurd hcc (by decide)

/-- **C4**, counterexample to the claim as stated: in the spec's own
zero-covariance scenario (`mu1 = mu2 = [0,0]`, both covariances the 2×2
zero matrix) the regularization path is taken, the warning naming `eps`
is emitted, and the function returns `-4·eps = -1/250000 < 0`: the result
is NOT non-negative. -/
theorem frechet_regularization_cex :
    calculate_frechet_distance sqrtmScipyZero [0, 0] z2 [0, 0] z2 (1 / 1000000) =
      .ok (-(1 / 250000), [warnMsg (1 / 1000000)]) ∧ (-(1 / 250000) : ℚ) < 0 := by
  constructor
  · have h := frechet_reg_path sqrtmScipyZero [0, 0] z2 [0, 0] z2 (1 / 1000000)
      rfl rfl z2_allFinite_false z2_reg_complex_check
    rw [regArg_z2, run_epsSq] at h
    rw [h]
    rw [show (⟨epsI2, z2, true, false⟩ : SqrtmResult).re = epsI2 from rfl, frechetVal_z2]
  · norm_num
/-- **C4** (amended): if any entry of the first square root is non-finite
the function emits the recoverable warning naming `eps`, recomputes the
root from the product of the covariances with `eps` added to each
diagonal, and — whenever that recomputed root passes the imaginary-part
check — returns a scalar without raising; the scalar equals
`diff·diff + tr sigma1 + tr sigma2 - 2·tr covmean` and can be slightly
negative (by up to `2·n·eps`), not necessarily non-negative. -/
theorem frechet_regularization (S : Sqrtm) (mu1 : Vec) (sigma1 : Mat) (mu2 : Vec)
    (sigma2 : Mat) (eps : ℚ)
    (h1 : mu1.length = mu2.length) (h2 : matShape sigma1 = matShape sigma2)
    (hnf : (S.run (matMul sigma1 sigma2)).allFinite = false)
    (hok : (S.run (matMul (matAdd sigma1 (eyeEps sigma1.length eps))
        (matAdd sigma2 (eyeEps sigma1.length eps)))).isComplex = true →
      diagImagOk (S.run (matMul (matAdd sigma1 (eyeEps sigma1.length eps))
        (matAdd sigma2 (eyeEps sigma1.length eps)))) = true) :
    calculate_frechet_distance S mu1 sigma1 mu2 sigma2 eps =
      .ok (frechetVal (vecSub mu1 mu2) sigma1 sigma2
        (S.run (matMul (matAdd sigma1 (eyeEps sigma1.length eps))
          (matAdd sigma2 (eyeEps sigma1.length eps)))).re,
        [warnMsg eps]) :=
  frechet_reg_path S mu1 sigma1 mu2 sigma2 eps h1 h2 hnf hok

/-- **C4** witness: the zero-covariance scenario instantiating the
amended claim. -/
theorem frechet_regularization_witness :
    ((sqrtmScipyZero.run (matMul z2 z2)).allFinite = false) ∧
      calculate_frechet_distance sqrtmScipyZero [0, 0] z2 [0, 0] z2 (1 / 1000000) =
        .ok (frechetVal (vecSub [0, 0] [0, 0]) z2 z2
          (sqrtmScipyZero.run (matMul (matAdd z2 (eyeEps z2.length (1 / 1000000)))
            (matAdd z2 (eyeEps z2.length (1 / 1000000))))).re,
          [warnMsg (1 / 1000000)]) :=
  ⟨z2_allFinite_false,
    frechet_regularization sqrtmScipyZero [0, 0] z2 [0, 0] z2 (1 / 1000000)
      rfl rfl z2_allFinite_false z2_reg_complex_check⟩

/-- **C5** (confirmed): whenever the computed root is a complex object,
the function discards the imaginary part and uses only the real part if
every diagonal imaginary entry is within absolute tolerance `1/1000` of
zero, and otherwise fails with a `ValueError` reporting the maximum
absolute imaginary magnitude over the WHOLE matrix. -/
theorem frechet_complex_residual (S : Sqrtm) (mu1 : Vec) (sigma1 : Mat) (mu2 : Vec)
    (sigma2 : Mat) (eps : ℚ)
    (h1 : mu1.length = mu2.length) (h2 : matShape sigma1 = matShape sigma2)
    (hc : (covmeanOf S sigma1 sigma2 eps).1.isComplex = true) :
    ((∀ i < min (covmeanOf S sigma1 sigma2 eps).1.im.length
        ((covmeanOf S sigma1 sigma2 eps).1.im.headD []).length,
        |matEntry (covmeanOf S sigma1 sigma2 eps).1.im i i| ≤ 1 / 1000) →
      calculate_frechet_distance S mu1 sigma1 mu2 sigma2 eps =
        .ok (frechetVal (vecSub mu1 mu2) sigma1 sigma2
          (covmeanOf S sigma1 sigma2 eps).1.re, (covmeanOf S sigma1 sigma2 eps).2)) ∧
    ((¬ ∀ i < min (covmeanOf S sigma1 sigma2 eps).1.im.length
        ((covmeanOf S sigma1 sigma2 eps).1.im.headD []).length,
        |matEntry (covmeanOf S sigma1 sigma2 eps).1.im i i| ≤ 1 / 1000) →
      calculate_frechet_distance S mu1 sigma1 mu2 sigma2 eps =
        .error (.valueError (maxAbs (covmeanOf S sigma1 sigma2 eps).1.im))) := by
  have hg1 : ¬ (mu1.length ≠ mu2.length) := by simp [h1]
  have hg2 : ¬ (matShape sigma1 ≠ matShape sigma2) := by simp [h2]
  constructor
  · intro hall
    have hok : diagImagOk (covmeanOf S sigma1 sigma2 eps).1 = true :=
      (diagImagOk_iff _).mpr hall
    simp only [calculate_frechet_distance, if_neg hg1, if_neg hg2, hc, hok, if_true]
  · intro hnall
    have hok : diagImagOk (covmeanOf S sigma1 sigma2 eps).1 = false := by
      cases hB : diagImagOk (covmeanOf S sigma1 sigma2 eps).1
      · rfl
      · exact absurd ((diagImagOk_iff _).mp hB) hnall
    simp only [calculate_frechet_distance, if_neg hg1, if_neg hg2, hc, hok,
      Bool.false_eq_true, if_false, if_true]

/-- **C5** witness at a complex-typed root with `|imag| = 1/2000 ≤ 1/1000`. -/
theorem frechet_complex_residual_witness :
    (([0] : Vec).length = ([0] : Vec).length) ∧
    (matShape [[1]] = matShape [[1]]) ∧
    ((covmeanOf sqrtmCplx [[1]] [[1]] (1 / 1000000)).1.isComplex = true) ∧
    (((∀ i < min (covmeanOf sqrtmCplx [[1]] [[1]] (1 / 1000000)).1.im.length
        ((covmeanOf sqrtmCplx [[1]] [[1]] (1 / 1000000)).1.im.headD []).length,
        |matEntry (covmeanOf sqrtmCplx [[1]] [[1]] (1 / 1000000)).1.im i i| ≤ 1 / 1000) →
      calculate_frechet_distance sqrtmCplx [0] [[1]] [0] [[1]] (1 / 1000000) =
        .ok (frechetVal (vecSub [0] [0]) [[1]] [[1]]
          (covmeanOf sqrtmCplx [[1]] [[1]] (1 / 1000000)).1.re,
          (covmeanOf sqrtmCplx [[1]] [[1]] (1 / 1000000)).2)) ∧
    ((¬ ∀ i < min (covmeanOf sqrtmCplx [[1]] [[1]] (1 / 1000000)).1.im.length
        ((covmeanOf sqrtmCplx [[1]] [[1]] (1 / 1000000)).1.im.headD []).length,
        |matEntry (covmeanOf sqrtmCplx [[1]] [[1]] (1 / 1000000)).1.im i i| ≤ 1 / 1000) →
      calculate_frechet_distance sqrtmCplx [0] [[1]] [0] [[1]] (1 / 1000000) =
        .error (.valueError (maxAbs (covmeanOf sqrtmCplx [[1]] [[1]] (1 / 1000000)).1.im)))) :=
  ⟨rfl, rfl, by simp [covmeanOf, sqrtmCplx],
    frechet_complex_residual sqrtmCplx [0] [[1]] [0] [[1]] (1 / 1000000)
      rfl rfl (by simp [covmeanOf, sqrtmCplx])⟩

/-- **C6** (confirmed): for EVERY square-root backend — i.e. before any
numerical work is attempted — mismatched mean-vector shapes raise the
assertion naming the mean precondition, and (with matching means)
mismatched covariance shapes raise the assertion naming the covariance
precondition. -/
theorem frechet_shape_guard (S : Sqrtm) (mu1 : Vec) (sigma1 : Mat) (mu2 : Vec)
    (sigma2 : Mat) (eps : ℚ) :
    (mu1.length ≠ mu2.length →
      calculate_frechet_distance S mu1 sigma1 mu2 sigma2 eps =
        .error (.assertionError "Training and test mean vectors have different lengths")) ∧
    (mu1.length = mu2.length → matShape sigma1 ≠ matShape sigma2 →
      calculate_frechet_distance S mu1 sigma1 mu2 sigma2 eps =
        .error (.assertionError "Training and test covariances have different dimensions")) := by
  constructor
  · intro h
    simp only [calculate_frechet_distance, if_pos h]
  · intro h hs
    have hg1 : ¬ (mu1.length ≠ mu2.length) := by simp [h]
    simp only [calculate_frechet_distance, if_neg hg1, if_pos hs]

/-- **C6** witness: the spec's Concrete scenario 4 (mean lengths 3 vs 4)
and a covariance-shape mismatch (1×1 vs 2×2). -/
theorem frechet_shape_guard_witness :
    (calculate_frechet_distance sqrtmAny [0, 0, 0] [[1]] [0, 0, 0, 0] [[1]] (1 / 1000000) =
      .error (.assertionError "Training and test mean vectors have different lengths")) ∧
    (calculate_frechet_distance sqrtmAny [0] [[1]] [0] [[1, 0], [0, 1]] (1 / 1000000) =
      .error (.assertionError "Training and test covariances have different dimensions")) :=
  ⟨(frechet_shape_guard sqrtmAny [0, 0, 0] [[1]] [0, 0, 0, 0] [[1]] (1 / 1000000)).1
      (by decide),
   (frechet_shape_guard sqrtmAny [0] [[1]] [0] [[1, 0], [0, 1]] (1 / 1000000)).2
      rfl (by decide)⟩

/-- **C9** (confirmed): `calculate_frechet_distance` is a pure function of
its inputs (the embedding is state-free, so the matrices are never
mutated), and even on the regularization path the `eps` offset appears
only inside the recomputed product: the trace terms of the returned value
are the traces of the ORIGINAL `sigma1` and `sigma2`. -/
theorem frechet_inputs_untouched (S : Sqrtm) (mu1 : Vec) (sigma1 : Mat) (mu2 : Vec)
    (sigma2 : Mat) (eps : ℚ)
    (h1 : mu1.length = mu2.length) (h2 : matShape sigma1 = matShape sigma2)
    (hnf : (S.run (matMul sigma1 sigma2)).allFinite = false)
    (hok : (S.run (matMul (matAdd sigma1 (eyeEps sigma1.length eps))
        (matAdd sigma2 (eyeEps sigma1.length eps)))).isComplex = true →
      diagImagOk (S.run (matMul (matAdd sigma1 (eyeEps sigma1.length eps))
        (matAdd sigma2 (eyeEps sigma1.length eps)))) = true) :
    ∃ w, calculate_frechet_distance S mu1 sigma1 mu2 sigma2 eps = .ok w ∧
      w.1 + 2 * trace ((S.run (matMul (matAdd sigma1 (eyeEps sigma1.length eps))
          (matAdd sigma2 (eyeEps sigma1.length eps)))).re)
        - dot (vecSub mu1 mu2) (vecSub mu1 mu2) = trace sigma1 + trace sigma2 := by
  refine ⟨_, frechet_reg_path S mu1 sigma1 mu2 sigma2 eps h1 h2 hnf hok, ?_⟩
  unfold frechetVal
  ring

/-- **C9** witness at the zero-covariance scenario. -/
theorem frechet_inputs_untouched_witness :
    ((sqrtmScipyZero.run (matMul z2 z2)).allFinite = false) ∧
    ∃ w, calculate_frechet_distance sqrtmScipyZero [0, 0] z2 [0, 0] z2 (1 / 1000000) =
        .ok w ∧
      w.1 + 2 * trace ((sqrtmScipyZero.run (matMul (matAdd z2 (eyeEps z2.length (1 / 1000000)))
          (matAdd z2 (eyeEps z2.length (1 / 1000000))))).re)
        - dot (vecSub [0, 0] [0, 0]) (vecSub [0, 0] [0, 0]) = trace z2 + trace z2 :=
  ⟨z2_allFinite_false,
    frechet_inputs_untouched sqrtmScipyZero [0, 0] z2 [0, 0] z2 (1 / 1000000)
      rfl rfl z2_allFinite_false z2_reg_complex_check⟩

/-! ## Claim theorems for the batch feeder / embedding extractor -/

theorem allSome_map_eq {α β : Type} (f : α → Option β) (g : α → β) :
    ∀ l : List α, (∀ a ∈ l, f a = some (g a)) → allSome (l.map f) = some (l.map g) := by
  intro l
  induction l with
  | nil => intro _; rfl
  | cons x xs ih =>
    intro h
    simp [allSome, h x (List.mem_cons_self x xs),
      ih (fun a ha => h a (List.mem_cons_of_mem _ ha))]

theorem ceilDiv_len_zero (b : ℕ) : ceilDiv 0 b = 0 := by
  unfold ceilDiv
  cases b with
  | zero => rfl
  | succ b => exact Nat.div_eq_of_lt (by omega)

theorem ceilDiv_len_succ (len b : ℕ) (hb : 0 < b) (h : 0 < len) :
    ceilDiv len b = ceilDiv (len - b) b + 1 := by
  unfold ceilDiv
  have e1 : len + b - 1 = (len - 1) + b := by omega
  rw [e1, Nat.add_div_right _ hb]
  rcases Nat.lt_or_ge len (b + 1) with hlt | hge
  · have e2 : len - b = 0 := by omega
    rw [e2]
    have e3 : (len - 1) / b = 0 := Nat.div_eq_of_lt (by omega)
    have e4 : (0 + b - 1) / b = 0 := Nat.div_eq_of_lt (by omega)
    rw [e3, e4]
  · have e2 : len - b + b - 1 = (len - b - 1) + b := by omega
    rw [e2, Nat.add_div_right _ hb]
    have e3 : len - 1 = (len - b - 1) + b := by omega
    rw [e3, Nat.add_div_right _ hb]

/-- One cyclic pass of the batch feeder covers the molecule list exactly:
the `ceil(n/b)` contiguous slices of width `b` concatenate back to the
list. -/
theorem chunks_join {α : Type} (b : ℕ) (hb : 0 < b) :
    ∀ (k : ℕ) (l : List α), l.length ≤ k * b →
      (List.range (ceilDiv l.length b)).flatMap (fun j => (l.drop (j * b)).take b) = l := by
  intro k
  induction k with
  | zero =>
    intro l hl
    have h0 : l.length = 0 := by omega
    have hl0 : l = [] := List.length_eq_zero.mp h0
    subst hl0
    simp [ceilDiv_len_zero]
  | succ k ih =>
    intro l hl
    rcases Nat.eq_zero_or_pos l.length with h0 | hpos
    · have hl0 : l = [] := List.length_eq_zero.mp h0
      subst hl0
      simp [ceilDiv_len_zero]
    · rw [ceilDiv_len_succ l.length b hb hpos, List.range_succ_eq_map, List.flatMap_cons,
        List.flatMap_map]
      have hdrop : ∀ j : ℕ, l.drop ((j + 1) * b) = (l.drop b).drop (j * b) := by
        intro j
        rw [List.drop_drop]
        congr 1
        ring
      have hfun : (fun a => (l.drop ((a + 1) * b)).take b) =
          (fun a : ℕ => ((l.drop b).drop (a * b)).take b) :=
        funext (fun j => by rw [hdrop j])
      have htail : (List.range (ceilDiv (l.length - b) b)).flatMap
          (fun a => (l.drop ((a + 1) * b)).take b) = l.drop b := by
        have hlen : (l.drop b).length = l.length - b := by simp
        have hle : (l.drop b).length ≤ k * b := by
          rw [hlen]
          rw [Nat.succ_mul] at hl
          omega
        have hih := ih (l.drop b) hle
        rw [hlen] at hih
        rw [hfun]
        exact hih
      rw [htail]
      simp only [Nat.zero_mul, List.drop_zero]
      exact List.take_append_drop b l

theorem length_le_ceilDiv_mul (len : ℕ) : len ≤ ceilDiv len 128 * 128 := by
  unfold ceilDiv
  have hq := Nat.div_add_mod (len + 128 - 1) 128
  have hr := Nat.mod_lt (len + 128 - 1) (show 0 < 128 by norm_num)
  omega

set_option maxRecDepth 4000 in
/-- **C7**, counterexample to the claim as stated: a one-molecule list
containing the empty string makes the generator raise inside
`get_one_hot`, so `get_predictions` propagates the exception instead of
returning 1 embedding vector. -/
theorem extractor_batches_cex :
    get_predictions (fun _ => ([] : List ℚ)) [""] = none := by
  decide


/-- **C7** (amended): for every molecule list whose strings are all
nonempty, `get_predictions` — which draws exactly `ceil(n / 128)` batches
from the cyclic feeder — returns exactly `n` embedding vectors, the i-th
being the model applied to the rescaled one-hot encoding of the i-th
molecule (input order preserved). -/
theorem extractor_batches (model : Mat → Vec) (mols : List String)
    (h : ∀ s ∈ mols, s ≠ "") :
    ∃ vs, get_predictions model mols = some vs ∧ vs.length = mols.length ∧
      ∀ i, vs.get? i = (mols.get? i).bind
        (fun s => (get_one_hot s 350).map (fun m => model (matDiv35 m))) := by
  have hf : ∀ s ∈ mols, (get_one_hot s 350).map matDiv35 =
      some (matDiv35 ((get_one_hot s 350).getD [])) := by
    intro s hsm
    obtain ⟨v, hv, _⟩ := get_one_hot_isSome s 350 (h s hsm) (by norm_num)
    rw [hv]
    rfl
  have hgen : ∀ j < ceilDiv mols.length 128, predict_my_generator mols 128 350 j =
      some (((mols.drop (j * 128)).take 128).map
        (fun s => matDiv35 ((get_one_hot s 350).getD []))) := by
    intro j hj
    simp only [predict_my_generator]
    rw [Nat.mod_eq_of_lt hj]
    exact allSome_map_eq _ _ _ (fun a ha =>
      hf a (List.mem_of_mem_drop (List.mem_of_mem_take ha)))
  have hbat : allSome ((List.range (ceilDiv mols.length 128)).map
      (predict_my_generator mols 128 350)) =
      some ((List.range (ceilDiv mols.length 128)).map
        (fun j => ((mols.drop (j * 128)).take 128).map
          (fun s => matDiv35 ((get_one_hot s 350).getD [])))) :=
    allSome_map_eq _ _ _ (fun j hjm => hgen j (List.mem_range.mp hjm))
  refine ⟨mols.map (fun s => model (matDiv35 ((get_one_hot s 350).getD []))), ?_,
    by simp, ?_⟩
  · unfold get_predictions predict_generator
    rw [hbat]
    simp only [Option.map_some']
    congr 1
    simp only [List.map_map]
    rw [← List.flatMap_def]
    simp only [Function.comp_def]
    simp only [List.map_map]
    rw [← List.map_flatMap,
      chunks_join 128 (by norm_num) (ceilDiv mols.length 128) mols
        (length_le_ceilDiv_mul mols.length)]
    simp only [Function.comp_def]
  · intro i
    rw [List.get?_map]
    rcases Nat.lt_or_ge i mols.length with hi | hi
    · have hsome : mols.get? i = some mols[i] := by
        rw [List.get?_eq_getElem?, List.getElem?_eq_getElem hi]
      rw [hsome]
      have hmem : mols[i] ∈ mols := List.getElem_mem hi
      obtain ⟨v, hv, _⟩ := get_one_hot_isSome mols[i] 350 (h _ hmem) (by norm_num)
      simp [hv]
    · rw [List.get?_eq_none.mpr hi]
      rfl

set_option maxRecDepth 10000 in
/-- **C7** witness: the spec's Concrete scenario 5, a 150-molecule list
with batch size 128 (2 feeder steps: 128 + 22) yielding 150 vectors. -/
theorem extractor_batches_witness :
    (∀ s ∈ List.replicate 150 "C", s ≠ "") ∧
      ∃ vs, get_predictions (fun _ => ([] : List ℚ)) (List.replicate 150 "C") = some vs ∧
        vs.length = (List.replicate 150 "C").length ∧
        ∀ i, vs.get? i = ((List.replicate 150 "C").get? i).bind
          (fun s => (get_one_hot s 350).map
            (fun m => (fun _ => ([] : List ℚ)) (matDiv35 m))) :=
  ⟨by decide, extractor_batches (fun _ => ([] : List ℚ)) (List.replicate 150 "C") (by decide)⟩
